import Mathlib

/-!
Verification of the Markdown list blank-line normalizer (`src/scratch/fix_md032.py`).

The script reads the lines of each Markdown file under a root directory,
and for every line matching `re.match on regex one, `^(\s*)[-*+]\s`` or
`re.match on regex two, `^(\s*)\d+\.\s`` whose predecessor line is non-blank
(its strip is nonempty), it inserts a bare newline before that line,
rewriting the file only when at least one insertion happened.

Modelling choices:
 - a line is a `List Char`; a file content is a `List Char`;
 - Python `readlines` is modelled by `readlines` below (split after each
   newline character, keeping the terminator); `writelines` is `List.join`;
 - the character classes of the regexes are taken at their ASCII meaning
   (Python `\s` also accepts some further Unicode codepoints, which are out
   of scope of this development, as are non-ASCII digits for `\d`);
 - the filesystem is an association list from path to file data; a file
   that is not valid UTF-8 is modelled by a `decodable := false` flag, so
   that the `UnicodeDecodeError` raised by the text read can be modelled;
 - the top level `os.walk` loop is modelled by `runWalk` over the list of
   `(directory, filename)` pairs the walk yields, threading a state that
   records the filesystem, the printed lines and the files opened for read;
   an uncaught exception is an `Except.error` carrying the state at fault.
-/

namespace FixMd032

/-- The ASCII interpretation of the regex class `\s` (and of the whitespace
set used by Python `str.strip`). -/
def isSpaceChar (c : Char) : Bool :=
  c = ' ' || c = '\t' || c = '\n' || c = '\x0b' || c = '\x0c' || c = '\r'

/-- The ASCII interpretation of the regex class `\d`. -/
def isDigitChar (c : Char) : Bool :=
  '0' ≤ c && c ≤ '9'

/-- The character class `[-*+]` of the first regex. -/
def isBullet (c : Char) : Bool :=
  c = '-' || c = '*' || c = '+'

/-- Checker for `re.match on regex one, `^(\s*)[-*+]\s``: since no bullet character
is whitespace, the anchored `\s*` necessarily consumes exactly the leading
whitespace run of the line. -/
def matchBullet (l : List Char) : Bool :=
  match l.dropWhile isSpaceChar with
  | c :: d :: _ => isBullet c && isSpaceChar d
  | _ => false

/-- Checker for `re.match on regex two, `^(\s*)\d+\.\s``: the anchored `\s*`
consumes the leading whitespace run, and the greedy `\d+` consumes the
whole digit run that follows, since a digit can match neither `\.` nor
the initial `\s*` after a digit was read. -/
def matchNumbered (l : List Char) : Bool :=
  let s := l.dropWhile isSpaceChar
  match s.dropWhile isDigitChar with
  | '.' :: d :: _ => !(s.takeWhile isDigitChar).isEmpty && isSpaceChar d
  | _ => false

/-- The list-item test of line 12 of the script: either regex matches. -/
def isListItem (l : List Char) : Bool :=
  matchBullet l || matchNumbered l

/-- Blank-line test of the script (strip yields the empty string): every
character of the line is whitespace. -/
def isBlank (l : List Char) : Bool :=
  l.all isSpaceChar

/-- The inserted line: `result_lines.append('\n')`. -/
def newline : List Char := ['\n']

/-- The loop body of `fix_md032_in_file`, with the previous input line
(`lines[i-1]`, `none` at the first line) made explicit.  Returns the pair
`(result_lines, modified)`. -/
def fixPass : Option (List Char) → List (List Char) → List (List Char) × Bool
  | _, [] => ([], false)
  | prev, l :: rest =>
    let ins : Bool :=
      match prev with
      | none => false
      | some p => isListItem l && !isBlank p
    let r := fixPass (some l) rest
    (if ins then newline :: l :: r.1 else l :: r.1, ins || r.2)

/-- The pure core of `fix_md032_in_file`: from the list of input lines,
the list of output lines and the `modified` flag. -/
def fix_md032_lines (ls : List (List Char)) : List (List Char) × Bool :=
  fixPass none ls

/-- Python `f.readlines()` on Linux: cut the content after each newline
character, keeping the terminators (worker, with the reversed accumulator
of the current partial line). -/
def splitLinesAux : List Char → List Char → List (List Char)
  | acc, [] => if acc.isEmpty then [] else [acc.reverse]
  | acc, c :: rest =>
    if c = '\n' then (acc.reverse ++ ['\n']) :: splitLinesAux [] rest
    else splitLinesAux (c :: acc) rest

/-- Python `f.readlines()` on Linux, on a decoded content. -/
def readlines (content : List Char) : List (List Char) :=
  splitLinesAux [] content

/-- The content-level behaviour of `fix_md032_in_file` on one file:
the resulting content of the file (unchanged when `modified` is false,
since the script then skips the write) and the `modified` flag. -/
def processFile (c : List Char) : List Char × Bool :=
  let r := fix_md032_lines (readlines c)
  (if r.2 then r.1.flatten else c, r.2)

/-! ### The specification-side description of one pass

The spec describes the transformation by indices into the input sequence:
line `i` receives one inserted blank line right before it exactly when
`i > 0`, line `i` is a list-item line, and line `i-1` is non-blank. -/

/-- Written from the spec: the insertion condition at input index `i`. -/
def specInsertAt (ls : List (List Char)) (i : Nat) : Bool :=
  decide (0 < i) && isListItem (ls.getD i []) && !isBlank (ls.getD (i - 1) [])

/-- Written from the spec: the output sequence is the input sequence with
exactly one blank line inserted immediately before each line whose index
satisfies the insertion condition, all original lines kept in order. -/
def specOutput (ls : List (List Char)) : List (List Char) :=
  (List.range ls.length).flatMap fun i =>
    (if specInsertAt ls i then [newline] else []) ++ [ls.getD i []]

/-- The invariant between two consecutive output lines: if the second is a
list-item line, the first is blank. -/
def PredOK (a b : List Char) : Prop := isListItem b = true → isBlank a = true

/-- A wellformed line is nonempty and holds no newline before its last
character.  `readlines` only produces such lines. -/
def wfLine (l : List Char) : Bool :=
  !l.isEmpty && l.dropLast.all (fun c => !(c = '\n'))

/-- A wellformed line sequence: every line is wellformed and every line but
the last ends with a newline. -/
def wfLines : List (List Char) → Bool
  | [] => true
  | [l] => wfLine l
  | l :: r :: rest => wfLine l && decide (l.getLast? = some '\n') && wfLines (r :: rest)

/-! ### The filesystem walk

The `os.walk` loop at the bottom of the script is modelled over the list of
`(directory, filename)` pairs the walk yields, in order.  The threaded state
records the filesystem and, as observable traces, the lines printed and the
paths opened for reading and for writing.  An uncaught Python exception is
an `Except.error` carrying the state at the moment of the fault. -/

/-- A stored file: whether its bytes decode as UTF-8 text, and the decoded
text when they do. -/
structure FileData where
  decodable : Bool
  text : List Char

/-- The filesystem: an association list from path to file data. -/
abbrev FS := List (String × FileData)

/-- Reading a path: the first entry with that path, if any. -/
def fsRead (fs : FS) (p : String) : Option FileData :=
  (fs.find? (fun e => decide (e.1 = p))).map (fun e => e.2)

/-- Rewriting an existing path in place. -/
def fsWrite (fs : FS) (p : String) (d : FileData) : FS :=
  fs.map (fun e => if e.1 = p then (p, d) else e)

/-- Python endswith test for the `.md` suffix: an exact, case-sensitive suffix test,
written out on the character list of the filename so that it is
kernel-executable. -/
def endsWithMd (f : String) : Bool :=
  decide (3 ≤ f.toList.length) &&
    decide (f.toList.drop (f.toList.length - 3) = ['.', 'm', 'd'])

/-- The observable state threaded through the walk. -/
structure ScriptState where
  fs : FS
  printed : List String
  reads : List String
  writes : List String

/-- One call of `fix_md032_in_file` on a path: open and read the file
(recording the read; a missing file or one that does not decode raises,
carrying the state at fault), run the pass, and when `modified` is set,
write the new lines back and print the notification.  The `.ok` payload
carries the `modified` flag the Python function returns. -/
def fix_md032_in_file (path : String) (st : ScriptState) :
    Except ScriptState (ScriptState × Bool) :=
  let st1 : ScriptState := { st with reads := st.reads ++ [path] }
  match fsRead st1.fs path with
  | none => .error st1
  | some fd =>
    if fd.decodable then
      let r := fix_md032_lines (readlines fd.text)
      if r.2 then
        .ok ({ st1 with
                fs := fsWrite st1.fs path ⟨true, r.1.flatten⟩,
                printed := st1.printed ++ ["Fixed MD032 errors in " ++ path],
                writes := st1.writes ++ [path] }, true)
      else
        .ok (st1, false)
    else
      .error st1

/-- The `os.walk` double loop, flattened to the `(root, filename)` pairs it
yields in order: every file whose name ends in `.md` is processed, the
returned flag is discarded, and an uncaught exception aborts the remaining
iterations. -/
def runWalk : List (String × String) → ScriptState → Except ScriptState ScriptState
  | [], st => .ok st
  | (root, f) :: rest, st =>
    if endsWithMd f then
      match fix_md032_in_file (root ++ "/" ++ f) st with
      | .error e => .error e
      | .ok (st2, _) => runWalk rest st2
    else
      runWalk rest st

/-- The final state of a run, whether it completed or aborted. -/
def outState : Except ScriptState ScriptState → ScriptState
  | .ok st => st
  | .error st => st

/-- Written from the spec: the paths of the Markdown files the run
modifies, in processing order (the list stops at the first faulting file,
where the run aborts). -/
def reportedPaths : List (String × String) → FS → List String
  | [], _ => []
  | (root, f) :: rest, fs =>
    if endsWithMd f then
      let p := root ++ "/" ++ f
      match fsRead fs p with
      | none => []
      | some fd =>
        if fd.decodable then
          let r := fix_md032_lines (readlines fd.text)
          if r.2 then p :: reportedPaths rest (fsWrite fs p ⟨true, r.1.flatten⟩)
          else reportedPaths rest fs
        else []
    else
      reportedPaths rest fs


/-- A path whose current content the pass leaves unchanged. -/
def NormalizedAt (fs : FS) (p : String) : Prop :=
  ∃ fd, fsRead fs p = some fd ∧ fd.decodable = true ∧
    (fix_md032_lines (readlines fd.text)).2 = false

/-! ### The semantics of the two regexes, as explicit splits -/

/-- The meaning of a `re.match on regex one, `^(\s*)[-*+]\s`` success: the line
splits into a run of whitespace, a bullet character, one whitespace
character and a remainder. -/
def RegexBulletMatch (l : List Char) : Prop :=
  ∃ ws c d rest, l = ws ++ c :: d :: rest ∧ (∀ x ∈ ws, isSpaceChar x = true) ∧
    isBullet c = true ∧ isSpaceChar d = true

/-- The meaning of a `re.match on regex two, `^(\s*)\d+\.\s`` success: the line
splits into a run of whitespace, a nonempty run of digits, a dot, one
whitespace character and a remainder. -/
def RegexNumberedMatch (l : List Char) : Prop :=
  ∃ ws ds d rest, l = ws ++ ds ++ '.' :: d :: rest ∧
    (∀ x ∈ ws, isSpaceChar x = true) ∧ ds ≠ [] ∧
    (∀ x ∈ ds, isDigitChar x = true) ∧ isSpaceChar d = true

theorem fixPass_some_fst (rest : List (List Char)) : ∀ p : List Char,
    (fixPass (some p) rest).1 =
      (List.range rest.length).flatMap (fun i =>
        (if isListItem (rest.getD i []) && !isBlank ((p :: rest).getD i []) then [newline] else [])
          ++ [rest.getD i []]) := by
  induction rest with
  | nil => intro p; simp [fixPass]
  | cons l rs ih =>
    intro p
    simp only [fixPass, List.length_cons, List.range_succ_eq_map, List.flatMap_cons,
      List.flatMap_map, Nat.succ_eq_add_one, List.getD_cons_zero, List.getD_cons_succ]
    rw [ih l]
    by_cases hb : (isListItem l && !isBlank p) = true <;> simp [hb]

theorem fixPass_some_snd (rest : List (List Char)) : ∀ p : List Char,
    (fixPass (some p) rest).2 =
      (List.range rest.length).any (fun i =>
        isListItem (rest.getD i []) && !isBlank ((p :: rest).getD i [])) := by
  induction rest with
  | nil => intro p; simp [fixPass]
  | cons l rs ih =>
    intro p
    simp only [fixPass, List.length_cons, List.range_succ_eq_map, List.any_cons,
      List.any_map, Nat.succ_eq_add_one, List.getD_cons_zero, List.getD_cons_succ]
    rw [ih l]
    rfl

theorem fix_lines_fst_eq (ls : List (List Char)) :
    (fix_md032_lines ls).1 = specOutput ls := by
  cases ls with
  | nil => rfl
  | cons l rs =>
    show (fixPass none (l :: rs)).1 = _
    simp only [fixPass, specOutput, List.length_cons, List.range_succ_eq_map,
      List.flatMap_cons, List.flatMap_map, Nat.succ_eq_add_one]
    rw [fixPass_some_fst rs l]
    simp [specInsertAt, Function.comp, List.getD_cons_succ, List.getD_cons_zero,
      Nat.succ_eq_add_one]

theorem fix_lines_snd_eq (ls : List (List Char)) :
    (fix_md032_lines ls).2 = (List.range ls.length).any (specInsertAt ls) := by
  cases ls with
  | nil => rfl
  | cons l rs =>
    show (fixPass none (l :: rs)).2 = _
    simp only [fixPass, List.length_cons, List.range_succ_eq_map, List.any_cons,
      List.any_map, Nat.succ_eq_add_one]
    rw [fixPass_some_snd rs l]
    have hfg : (fun i => isListItem (rs.getD i []) && !isBlank ((l :: rs).getD i []))
        = (specInsertAt (l :: rs) ∘ Nat.succ) := by
      funext i
      have h0 : 0 < i + 1 := Nat.zero_lt_succ i
      simp [specInsertAt, Function.comp, Nat.succ_eq_add_one, List.getD_cons_succ,
        Nat.succ_sub_one, h0]
    rw [hfg]
    simp [specInsertAt]

/-! ### The established invariant and idempotence -/


theorem isListItem_newline : isListItem newline = false := by decide

theorem isBlank_newline : isBlank newline = true := by decide

theorem isListItem_nil : isListItem ([] : List Char) = false := by decide

/-- A blank line is never classified as a list-item line. -/
theorem isBlank_not_listItem {l : List Char} (h : isBlank l = true) : isListItem l = false := by
  have hd : l.dropWhile isSpaceChar = [] :=
    List.dropWhile_eq_nil_iff.mpr (fun x hx => List.all_eq_true.mp h x hx)
  simp [isListItem, matchBullet, matchNumbered, hd]

theorem chain_fixPass (ls : List (List Char)) : ∀ p : List Char,
    List.Chain PredOK p (fixPass (some p) ls).1 := by
  induction ls with
  | nil => intro p; exact List.Chain.nil
  | cons l rs ih =>
    intro p
    by_cases hb : (isListItem l && !isBlank p) = true
    · have hr : (fixPass (some p) (l :: rs)).1 = newline :: l :: (fixPass (some l) rs).1 := by
        simp [fixPass, hb]
      rw [hr]
      refine List.Chain.cons ?_ (List.Chain.cons ?_ (ih l))
      · intro h; rw [isListItem_newline] at h; cases h
      · intro _; exact isBlank_newline
    · have hr : (fixPass (some p) (l :: rs)).1 = l :: (fixPass (some l) rs).1 := by
        simp [fixPass, hb]
      rw [hr]
      refine List.Chain.cons ?_ (ih l)
      intro hl
      simp [hl] at hb
      exact hb

/-- After one pass, every list-item line of the output is preceded by a
blank line. -/
theorem chain'_fix (ls : List (List Char)) :
    List.Chain' PredOK (fix_md032_lines ls).1 := by
  cases ls with
  | nil => simp [fix_md032_lines, fixPass]
  | cons l rs =>
    have hr : (fix_md032_lines (l :: rs)).1 = l :: (fixPass (some l) rs).1 := by
      simp [fix_md032_lines, fixPass]
    rw [hr]
    exact chain_fixPass rs l

/-- On a line sequence satisfying the invariant, the pass makes no change
and reports no modification. -/
theorem fixPass_of_chain (ls : List (List Char)) : ∀ p : List Char,
    List.Chain PredOK p ls → fixPass (some p) ls = (ls, false) := by
  induction ls with
  | nil => intro p _; rfl
  | cons l rs ih =>
    intro p hc
    cases hc with
    | cons h1 h2 =>
      have hb : (isListItem l && !isBlank p) = false := by
        by_cases hl : isListItem l = true
        · simp [hl, h1 hl]
        · simp at hl; simp [hl]
      simp [fixPass, hb, ih l h2]

theorem fix_of_chain' (ls : List (List Char)) (h : List.Chain' PredOK ls) :
    fix_md032_lines ls = (ls, false) := by
  cases ls with
  | nil => rfl
  | cons l rs =>
    have h2 : List.Chain PredOK l rs := h
    simp [fix_md032_lines, fixPass, fixPass_of_chain rs l h2]

/-- Idempotence at the level of line sequences. -/
theorem fix_lines_idem (ls : List (List Char)) :
    fix_md032_lines (fix_md032_lines ls).1 = ((fix_md032_lines ls).1, false) :=
  fix_of_chain' _ (chain'_fix ls)

/-- When the pass reports no modification, it also changed nothing. -/
theorem fixPass_fst_of_snd_false (ls : List (List Char)) :
    ∀ prev, (fixPass prev ls).2 = false → (fixPass prev ls).1 = ls := by
  induction ls with
  | nil => intro prev _; rfl
  | cons l rs ih =>
    intro prev h
    cases prev with
    | none =>
      simp only [fixPass, Bool.false_or] at h ⊢
      simp [ih (some l) h]
    | some p =>
      simp only [fixPass] at h ⊢
      rcases Bool.or_eq_false_iff.mp h with ⟨hb, hr⟩
      simp [hb, ih (some l) hr]

/-- All original lines appear, unchanged and in order, in the output. -/
theorem sublist_fixPass (ls : List (List Char)) :
    ∀ prev, ls.Sublist (fixPass prev ls).1 := by
  induction ls with
  | nil => intro prev; simp [fixPass]
  | cons l rs ih =>
    intro prev
    cases prev with
    | none =>
      have hr : (fixPass none (l :: rs)).1 = l :: (fixPass (some l) rs).1 := by
        simp [fixPass]
      rw [hr]
      exact List.Sublist.cons₂ l (ih (some l))
    | some p =>
      by_cases hb : (isListItem l && !isBlank p) = true
      · have hr : (fixPass (some p) (l :: rs)).1 = newline :: l :: (fixPass (some l) rs).1 := by
          simp [fixPass, hb]
        rw [hr]
        exact List.Sublist.cons newline (List.Sublist.cons₂ l (ih (some l)))
      · have hr : (fixPass (some p) (l :: rs)).1 = l :: (fixPass (some l) rs).1 := by
          simp [fixPass, hb]
        rw [hr]
        exact List.Sublist.cons₂ l (ih (some l))

/-! ### Line splitting: round trips between contents and line sequences -/


theorem wfLines_cons (l : List Char) (t : List (List Char)) :
    wfLines (l :: t) =
      (wfLine l && (t.isEmpty || (decide (l.getLast? = some '\n') && wfLines t))) := by
  cases t with
  | nil => simp [wfLines]
  | cons r rest =>
    simp only [wfLines, List.isEmpty_cons, Bool.false_or]
    rw [Bool.and_assoc]

theorem flatten_splitLinesAux (c : List Char) : ∀ acc : List Char,
    (splitLinesAux acc c).flatten = acc.reverse ++ c := by
  induction c with
  | nil =>
    intro acc
    by_cases h : acc.isEmpty = true
    · rw [List.isEmpty_iff.mp h]; simp [splitLinesAux]
    · simp [splitLinesAux, h]
  | cons x xs ih =>
    intro acc
    by_cases hx : x = '\n'
    · subst hx
      simp [splitLinesAux, ih []]
    · simp only [splitLinesAux, if_neg hx]
      rw [ih (x :: acc)]
      simp

/-- Joining the lines read from a content recovers the content. -/
theorem flatten_readlines (c : List Char) : (readlines c).flatten = c := by
  have h := flatten_splitLinesAux c []
  simpa [readlines] using h

theorem splitLinesAux_no_newline (m : List Char) : ∀ (acc r : List Char),
    (∀ x ∈ m, x ≠ '\n') →
    splitLinesAux acc (m ++ r) = splitLinesAux (m.reverse ++ acc) r := by
  induction m with
  | nil => intro acc r _; simp
  | cons x xs ih =>
    intro acc r hm
    have hx : ¬(x = '\n') := hm x (by simp)
    simp only [List.cons_append, splitLinesAux, if_neg hx, List.append_eq]
    rw [ih (x :: acc) r (fun y hy => hm y (by simp [hy]))]
    simp

theorem wfLine_no_newline {l : List Char} (h : wfLine l = true) :
    ∀ x ∈ l.dropLast, x ≠ '\n' := by
  intro x hx
  have := List.all_eq_true.mp (Bool.and_elim_right h) x hx
  simpa using this

/-- On a wellformed line sequence, reading back the joined content yields
the same line sequence. -/
theorem readlines_flatten (ls : List (List Char)) (h : wfLines ls = true) :
    readlines ls.flatten = ls := by
  induction ls with
  | nil => rfl
  | cons l rest ih =>
    cases rest with
    | nil =>
      have hl : wfLine l = true := h
      have hne : l ≠ [] := by
        have := Bool.and_elim_left hl
        simpa using this
      by_cases hlast : l.getLast? = some '\n'
      · have hsplit : l.dropLast ++ ['\n'] = l := List.dropLast_append_getLast? '\n' hlast
        show splitLinesAux [] ([l].flatten) = [l]
        have : [l].flatten = l.dropLast ++ ('\n' :: []) := by
          conv_lhs => rw [List.flatten_cons, ← hsplit]
          simp
        rw [this, splitLinesAux_no_newline l.dropLast [] ('\n' :: []) (wfLine_no_newline hl)]
        simp [splitLinesAux, hsplit]
      · have hnn : ∀ x ∈ l, x ≠ '\n' := by
          intro x hx
          have hx2 := (List.dropLast_append_getLast hne) ▸ hx
          rcases List.mem_append.mp hx2 with h1 | h1
          · exact wfLine_no_newline hl x h1
          · rcases List.mem_singleton.mp h1 with rfl
            intro hc
            exact hlast (hc ▸ List.getLast?_eq_getLast l hne)
        show splitLinesAux [] ([l].flatten) = [l]
        have hfl : [l].flatten = l ++ [] := by simp
        rw [hfl, splitLinesAux_no_newline l [] [] hnn]
        simp [splitLinesAux, hne]
    | cons r rest2 =>
      have hl : wfLine l = true := Bool.and_elim_left (Bool.and_elim_left h)
      have hlast : l.getLast? = some '\n' := by
        have := Bool.and_elim_right (Bool.and_elim_left h)
        simpa using this
      have ht : wfLines (r :: rest2) = true := Bool.and_elim_right h
      have hsplit : l.dropLast ++ ['\n'] = l := List.dropLast_append_getLast? '\n' hlast
      show splitLinesAux [] ((l :: r :: rest2).flatten) = l :: r :: rest2
      have hfl : (l :: r :: rest2).flatten = l.dropLast ++ ('\n' :: (r :: rest2).flatten) := by
        conv_lhs => rw [List.flatten_cons, ← hsplit]
        simp
      rw [hfl, splitLinesAux_no_newline l.dropLast [] _ (wfLine_no_newline hl)]
      simp only [splitLinesAux, List.append_nil, List.reverse_reverse]
      rw [hsplit]
      exact congrArg (l :: ·) (ih ht)

theorem wf_splitLinesAux (c : List Char) : ∀ acc : List Char,
    (∀ x ∈ acc, x ≠ '\n') → wfLines (splitLinesAux acc c) = true := by
  induction c with
  | nil =>
    intro acc hacc
    by_cases h : acc.isEmpty = true
    · simp [splitLinesAux, h, wfLines]
    · simp only [splitLinesAux, if_neg h]
      show wfLine acc.reverse = true
      have hne : acc ≠ [] := fun hc => h (by simp [hc])
      simp only [wfLine, Bool.and_eq_true, List.all_eq_true]
      refine ⟨by simpa using hne, ?_⟩
      intro x hx
      have hx2 : x ∈ acc.reverse := (List.dropLast_sublist _).mem hx
      have hx3 : x ∈ acc := by simpa using hx2
      simp [hacc x hx3]
  | cons x xs ih =>
    intro acc hacc
    by_cases hx : x = '\n'
    · subst hx
      simp only [splitLinesAux, if_pos rfl, if_true]
      rw [wfLines_cons]
      have h1 : wfLine (acc.reverse ++ ['\n']) = true := by
        simp only [wfLine, Bool.and_eq_true, List.all_eq_true]
        refine ⟨by simp, ?_⟩
        intro y hy
        rw [List.dropLast_concat] at hy
        have hy2 : y ∈ acc := by simpa using hy
        simp [hacc y hy2]
      have h2 : (acc.reverse ++ ['\n']).getLast? = some '\n' := List.getLast?_concat _
      have h3 := ih [] (by simp)
      simp [h1, h2, h3]
    · simp only [splitLinesAux, if_neg hx]
      refine ih (x :: acc) ?_
      intro y hy
      rcases List.mem_cons.mp hy with rfl | hy2
      · exact hx
      · exact hacc y hy2

/-- The function `readlines` only produces wellformed line sequences. -/
theorem wf_readlines (c : List Char) : wfLines (readlines c) = true :=
  wf_splitLinesAux c [] (by simp)

theorem fixPass_fst_ne_nil (l : List Char) (rs : List (List Char)) :
    ∀ prev, (fixPass prev (l :: rs)).1 ≠ [] := by
  intro prev
  rcases prev with _ | p
  · simp [fixPass]
  · by_cases hb : (isListItem l && !isBlank p) = true <;> simp [fixPass, hb]

/-- The pass preserves wellformedness: an inserted line is a bare newline,
and it is always followed by the list-item line it was inserted before. -/
theorem wf_fixPass (ls : List (List Char)) : ∀ prev, wfLines ls = true →
    wfLines (fixPass prev ls).1 = true := by
  induction ls with
  | nil => intro prev _; simp [fixPass, wfLines]
  | cons l rs ih =>
    intro prev h
    rw [wfLines_cons] at h
    rcases Bool.and_eq_true_iff.mp h with ⟨hl, hor⟩
    have hx : wfLines (l :: (fixPass (some l) rs).1) = true := by
      rw [wfLines_cons]
      cases rs with
      | nil => simp [fixPass, hl]
      | cons r rs2 =>
        have hne := fixPass_fst_ne_nil r rs2 (some l)
        have hor2 : (decide (l.getLast? = some '\n') && wfLines (r :: rs2)) = true := by
          simpa using hor
        rcases Bool.and_eq_true_iff.mp hor2 with ⟨hg, hwf⟩
        have hX := ih (some l) hwf
        simp [hl, hg, hX, hne]
    have hnlwf : wfLine newline = true := by decide
    have hnlg : newline.getLast? = some '\n' := rfl
    cases prev with
    | none =>
      have hshape : (fixPass none (l :: rs)).1 = l :: (fixPass (some l) rs).1 := by
        simp [fixPass]
      rw [hshape]; exact hx
    | some p =>
      by_cases hb : (isListItem l && !isBlank p) = true
      · have hshape : (fixPass (some p) (l :: rs)).1
            = newline :: l :: (fixPass (some l) rs).1 := by
          simp [fixPass, hb]
        rw [hshape, wfLines_cons]
        simp [hx, hnlwf, hnlg]
      · have hshape : (fixPass (some p) (l :: rs)).1 = l :: (fixPass (some l) rs).1 := by
          simp [fixPass, hb]
        rw [hshape]; exact hx

/-- Idempotence at the level of whole file contents. -/
theorem processFile_idem (c : List Char) :
    processFile (processFile c).1 = ((processFile c).1, false) := by
  by_cases hm : (fix_md032_lines (readlines c)).2 = true
  · have hout : (processFile c).1 = (fix_md032_lines (readlines c)).1.flatten := by
      simp [processFile, hm]
    have hwf : wfLines (fix_md032_lines (readlines c)).1 = true :=
      wf_fixPass (readlines c) none (wf_readlines c)
    have hrl : readlines ((fix_md032_lines (readlines c)).1.flatten)
        = (fix_md032_lines (readlines c)).1 := readlines_flatten _ hwf
    have hfix : fix_md032_lines ((fix_md032_lines (readlines c)).1)
        = ((fix_md032_lines (readlines c)).1, false) := fix_lines_idem (readlines c)
    rw [hout]
    simp [processFile, hrl, hfix]
  · have hm2 : (fix_md032_lines (readlines c)).2 = false := by simpa using hm
    have hout : (processFile c).1 = c := by simp [processFile, hm2]
    rw [hout]
    simp [processFile, hm2]

/-- Closed-form case analysis of one `fix_md032_in_file` call. -/
theorem fix_file_spec (q : String) (st : ScriptState) :
    fix_md032_in_file q st =
      match fsRead st.fs q with
      | none => .error ⟨st.fs, st.printed, st.reads ++ [q], st.writes⟩
      | some fd =>
        if fd.decodable then
          if (fix_md032_lines (readlines fd.text)).2 then
            .ok (⟨fsWrite st.fs q ⟨true, (fix_md032_lines (readlines fd.text)).1.flatten⟩,
                  st.printed ++ ["Fixed MD032 errors in " ++ q],
                  st.reads ++ [q], st.writes ++ [q]⟩, true)
          else
            .ok (⟨st.fs, st.printed, st.reads ++ [q], st.writes⟩, false)
        else
          .error ⟨st.fs, st.printed, st.reads ++ [q], st.writes⟩ := by
  cases hfd : fsRead st.fs q with
  | none => simp [fix_md032_in_file, hfd]
  | some fd =>
    cases hdec : fd.decodable with
    | false => simp [fix_md032_in_file, hfd, hdec]
    | true =>
      cases hr : (fix_md032_lines (readlines fd.text)).2 with
      | false => simp [fix_md032_in_file, hfd, hdec, hr]
      | true => simp [fix_md032_in_file, hfd, hdec, hr]

theorem fsRead_cons (e : String × FileData) (fs : FS) (p : String) :
    fsRead (e :: fs) p = if e.1 = p then some e.2 else fsRead fs p := by
  by_cases he : e.1 = p <;> simp [fsRead, List.find?, he]

theorem fsRead_fsWrite_ne (fs : FS) (q p : String) (v : FileData) (h : p ≠ q) :
    fsRead (fsWrite fs q v) p = fsRead fs p := by
  induction fs with
  | nil => rfl
  | cons e fsr ih =>
    show fsRead ((if e.1 = q then (q, v) else e) :: fsWrite fsr q v) p = _
    by_cases he : e.1 = q
    · rw [if_pos he, fsRead_cons, fsRead_cons]
      rw [if_neg (fun hc => h hc.symm), if_neg (he ▸ fun hc => h hc.symm)]
      exact ih
    · rw [if_neg he, fsRead_cons, fsRead_cons]
      by_cases hp : e.1 = p
      · rw [if_pos hp, if_pos hp]
      · rw [if_neg hp, if_neg hp]; exact ih

theorem fsRead_fsWrite_self (fs : FS) (q : String) (v : FileData) (fd : FileData)
    (h : fsRead fs q = some fd) : fsRead (fsWrite fs q v) q = some v := by
  induction fs with
  | nil => simp [fsRead] at h
  | cons e fsr ih =>
    rw [fsRead_cons] at h
    show fsRead ((if e.1 = q then (q, v) else e) :: fsWrite fsr q v) q = _
    by_cases he : e.1 = q
    · rw [if_pos he, fsRead_cons, if_pos rfl]
    · rw [if_neg he] at h
      rw [if_neg he, fsRead_cons, if_neg he]
      exact ih h

theorem runWalk_append (a b : List (String × String)) : ∀ st : ScriptState,
    runWalk (a ++ b) st =
      match runWalk a st with
      | .ok s => runWalk b s
      | .error e => .error e := by
  induction a with
  | nil => intro st; rfl
  | cons x a ih =>
    intro st
    rcases x with ⟨root, f⟩
    show runWalk ((root, f) :: (a ++ b)) st = _
    by_cases hf : endsWithMd f = true
    · simp only [runWalk, hf, if_true]
      cases hfix : fix_md032_in_file (root ++ "/" ++ f) st with
      | error e => rfl
      | ok pr =>
        rcases pr with ⟨st2, flag⟩
        exact ih st2
    · simp only [runWalk, hf, Bool.false_eq_true, if_false]
      exact ih st

/-- The lines the run prints are exactly one notification per modified
Markdown file, in processing order, whether or not the run aborted. -/
theorem runWalk_printed (entries : List (String × String)) : ∀ st : ScriptState,
    (outState (runWalk entries st)).printed =
      st.printed ++ (reportedPaths entries st.fs).map
        (fun p => "Fixed MD032 errors in " ++ p) := by
  induction entries with
  | nil => intro st; simp [runWalk, outState, reportedPaths]
  | cons x rest ih =>
    intro st
    rcases x with ⟨root, f⟩
    by_cases hf : endsWithMd f = true
    · simp only [runWalk, reportedPaths, hf, if_true]
      rw [fix_file_spec]
      cases hfd : fsRead st.fs (root ++ "/" ++ f) with
      | none => simp [outState]
      | some fd =>
        cases hdec : fd.decodable with
        | false => simp [outState, hdec]
        | true =>
          cases hr : (fix_md032_lines (readlines fd.text)).2 with
          | false => simp [hdec, hr, ih]
          | true => simp [hdec, hr, ih]
    · simp only [runWalk, reportedPaths, hf, Bool.false_eq_true, if_false]
      exact ih st

theorem mem_of_mem_append_singleton {α : Type} {p q : α} {l : List α}
    (h : p ∈ l ++ [q]) (hne : p ≠ q) : p ∈ l := by
  rcases List.mem_append.mp h with h1 | h1
  · exact h1
  · rcases List.mem_singleton.mp h1 with rfl
    exact absurd rfl hne

theorem runWalk_cons_nonmd (root f : String) (rest : List (String × String))
    (st : ScriptState) (hf : endsWithMd f = false) :
    runWalk ((root, f) :: rest) st = runWalk rest st := by
  simp only [runWalk, hf, Bool.false_eq_true, if_false]

theorem runWalk_cons_md_none (root f : String) (rest : List (String × String))
    (st : ScriptState) (hf : endsWithMd f = true)
    (hfd : fsRead st.fs (root ++ "/" ++ f) = none) :
    runWalk ((root, f) :: rest) st =
      .error ⟨st.fs, st.printed, st.reads ++ [root ++ "/" ++ f], st.writes⟩ := by
  simp only [runWalk, hf, if_true]
  rw [fix_file_spec, hfd]

theorem runWalk_cons_md_nodecode (root f : String) (rest : List (String × String))
    (st : ScriptState) (fd : FileData) (hf : endsWithMd f = true)
    (hfd : fsRead st.fs (root ++ "/" ++ f) = some fd) (hdec : fd.decodable = false) :
    runWalk ((root, f) :: rest) st =
      .error ⟨st.fs, st.printed, st.reads ++ [root ++ "/" ++ f], st.writes⟩ := by
  simp only [runWalk, hf, if_true]
  rw [fix_file_spec, hfd]
  simp [hdec]

theorem runWalk_cons_md_write (root f : String) (rest : List (String × String))
    (st : ScriptState) (fd : FileData) (hf : endsWithMd f = true)
    (hfd : fsRead st.fs (root ++ "/" ++ f) = some fd) (hdec : fd.decodable = true)
    (hr2 : (fix_md032_lines (readlines fd.text)).2 = true) :
    runWalk ((root, f) :: rest) st =
      runWalk rest ⟨fsWrite st.fs (root ++ "/" ++ f)
          ⟨true, (fix_md032_lines (readlines fd.text)).1.flatten⟩,
        st.printed ++ ["Fixed MD032 errors in " ++ (root ++ "/" ++ f)],
        st.reads ++ [root ++ "/" ++ f], st.writes ++ [root ++ "/" ++ f]⟩ := by
  simp only [runWalk, hf, if_true]
  rw [fix_file_spec, hfd]
  simp [hdec, hr2]

theorem runWalk_cons_md_nochange (root f : String) (rest : List (String × String))
    (st : ScriptState) (fd : FileData) (hf : endsWithMd f = true)
    (hfd : fsRead st.fs (root ++ "/" ++ f) = some fd) (hdec : fd.decodable = true)
    (hr2 : (fix_md032_lines (readlines fd.text)).2 = false) :
    runWalk ((root, f) :: rest) st =
      runWalk rest ⟨st.fs, st.printed, st.reads ++ [root ++ "/" ++ f], st.writes⟩ := by
  simp only [runWalk, hf, if_true]
  rw [fix_file_spec, hfd]
  simp [hdec, hr2]

/-- Files at a path no Markdown walk entry resolves to are never opened for
reading or writing, and keep their content. -/
theorem runWalk_frame (entries : List (String × String)) :
    ∀ (st : ScriptState) (p : String),
    (∀ d n, (d, n) ∈ entries → d ++ "/" ++ n = p → endsWithMd n = false) →
    ((p ∈ (outState (runWalk entries st)).reads → p ∈ st.reads) ∧
     (p ∈ (outState (runWalk entries st)).writes → p ∈ st.writes) ∧
     fsRead (outState (runWalk entries st)).fs p = fsRead st.fs p) := by
  induction entries with
  | nil => intro st p _; exact ⟨fun h => h, fun h => h, rfl⟩
  | cons x rest ih =>
    intro st p hent
    rcases x with ⟨root, f⟩
    have hent2 : ∀ d n, (d, n) ∈ rest → d ++ "/" ++ n = p → endsWithMd n = false :=
      fun d n hm => hent d n (List.mem_cons_of_mem _ hm)
    by_cases hf : endsWithMd f = true
    · have hq : p ≠ root ++ "/" ++ f := by
        intro hc
        have := hent root f (List.mem_cons_self _ _) hc.symm
        rw [hf] at this; cases this
      cases hfd : fsRead st.fs (root ++ "/" ++ f) with
      | none =>
        rw [runWalk_cons_md_none root f rest st hf hfd]
        exact ⟨fun h => mem_of_mem_append_singleton h hq, fun h => h, rfl⟩
      | some fd =>
        cases hdec : fd.decodable with
        | false =>
          rw [runWalk_cons_md_nodecode root f rest st fd hf hfd hdec]
          exact ⟨fun h => mem_of_mem_append_singleton h hq, fun h => h, rfl⟩
        | true =>
          cases hr2 : (fix_md032_lines (readlines fd.text)).2 with
          | true =>
            rw [runWalk_cons_md_write root f rest st fd hf hfd hdec hr2]
            rcases ih ⟨fsWrite st.fs (root ++ "/" ++ f)
                ⟨true, (fix_md032_lines (readlines fd.text)).1.flatten⟩,
                st.printed ++ ["Fixed MD032 errors in " ++ (root ++ "/" ++ f)],
                st.reads ++ [root ++ "/" ++ f],
                st.writes ++ [root ++ "/" ++ f]⟩ p hent2 with ⟨h1, h2, h3⟩
            refine ⟨?_, ?_, ?_⟩
            · intro h; exact mem_of_mem_append_singleton (h1 h) hq
            · intro h; exact mem_of_mem_append_singleton (h2 h) hq
            · rw [h3]; exact fsRead_fsWrite_ne st.fs _ p _ hq
          | false =>
            rw [runWalk_cons_md_nochange root f rest st fd hf hfd hdec hr2]
            rcases ih ⟨st.fs, st.printed, st.reads ++ [root ++ "/" ++ f], st.writes⟩
                p hent2 with ⟨h1, h2, h3⟩
            exact ⟨fun h => mem_of_mem_append_singleton (h1 h) hq, h2, h3⟩
    · have hf2 : endsWithMd f = false := by
        cases hval : endsWithMd f
        · rfl
        · exact absurd hval hf
      rw [runWalk_cons_nonmd root f rest st hf2]
      exact ih st p hent2

/-- A read that raises (missing file, or non-UTF-8 bytes) aborts the whole
run at that point: nothing of the faulting file is written, nothing after
it is processed, and the state so far is surfaced with the abort. -/
theorem runWalk_decode_error
    (pre post : List (String × String)) (root f : String) (st0 st1 : ScriptState)
    (fd : FileData) (hmd : endsWithMd f = true)
    (hpre : runWalk pre st0 = .ok st1)
    (hread : fsRead st1.fs (root ++ "/" ++ f) = some fd)
    (hdec : fd.decodable = false) :
    runWalk (pre ++ (root, f) :: post) st0 =
      .error ⟨st1.fs, st1.printed, st1.reads ++ [root ++ "/" ++ f], st1.writes⟩ := by
  rw [runWalk_append, hpre]
  show runWalk ((root, f) :: post) st1 = _
  simp only [runWalk, hmd, if_true]
  rw [fix_file_spec, hread]
  simp [hdec]

/-! ### A second run makes no further change -/


theorem wf_fix_lines (ls : List (List Char)) (h : wfLines ls = true) :
    wfLines (fix_md032_lines ls).1 = true :=
  wf_fixPass ls none h

/-- The content the script writes back is already normalized. -/
theorem fix_written_normalized (c : List Char) :
    (fix_md032_lines (readlines ((fix_md032_lines (readlines c)).1.flatten))).2 = false := by
  rw [readlines_flatten ((fix_md032_lines (readlines c)).1)
    (wf_fix_lines (readlines c) (wf_readlines c))]
  rw [fix_lines_idem (readlines c)]

theorem norm_preserved_write (fs : FS) (q : String) (c : List Char) (p : String)
    (h : NormalizedAt fs p) :
    NormalizedAt (fsWrite fs q ⟨true, (fix_md032_lines (readlines c)).1.flatten⟩) p := by
  by_cases hpq : p = q
  · subst hpq
    rcases h with ⟨fd, hr, _, _⟩
    exact ⟨_, fsRead_fsWrite_self fs p _ fd hr, rfl, fix_written_normalized c⟩
  · rcases h with ⟨fd, hr, hd, hn⟩
    exact ⟨fd, (fsRead_fsWrite_ne fs q p _ hpq).trans hr, hd, hn⟩

theorem runWalk_preserves_norm (entries : List (String × String)) :
    ∀ (st st1 : ScriptState) (p : String), runWalk entries st = .ok st1 →
      NormalizedAt st.fs p → NormalizedAt st1.fs p := by
  induction entries with
  | nil =>
    intro st st1 p h hn
    cases h; exact hn
  | cons x rest ih =>
    intro st st1 p h hn
    rcases x with ⟨root, f⟩
    by_cases hf : endsWithMd f = true
    · cases hfd : fsRead st.fs (root ++ "/" ++ f) with
      | none =>
        rw [runWalk_cons_md_none root f rest st hf hfd] at h
        cases h
      | some fd =>
        cases hdec : fd.decodable with
        | false =>
          rw [runWalk_cons_md_nodecode root f rest st fd hf hfd hdec] at h
          cases h
        | true =>
          cases hr2 : (fix_md032_lines (readlines fd.text)).2 with
          | true =>
            rw [runWalk_cons_md_write root f rest st fd hf hfd hdec hr2] at h
            exact ih _ st1 p h (norm_preserved_write st.fs _ fd.text p hn)
          | false =>
            rw [runWalk_cons_md_nochange root f rest st fd hf hfd hdec hr2] at h
            exact ih _ st1 p h hn
    · have hf2 : endsWithMd f = false := by
        cases hval : endsWithMd f
        · rfl
        · exact absurd hval hf
      rw [runWalk_cons_nonmd root f rest st hf2] at h
      exact ih st st1 p h hn

/-- After a completed run, every Markdown file the walk visited is
normalized. -/
theorem runWalk_establishes_norm (entries : List (String × String)) :
    ∀ (st st1 : ScriptState), runWalk entries st = .ok st1 →
      ∀ root f, (root, f) ∈ entries → endsWithMd f = true →
        NormalizedAt st1.fs (root ++ "/" ++ f) := by
  induction entries with
  | nil => intro st st1 _ root f hm; cases hm
  | cons x rest ih =>
    intro st st1 h root f hm hf2
    rcases x with ⟨root0, f0⟩
    rcases List.mem_cons.mp hm with heq | hmem
    · cases heq
      cases hfd : fsRead st.fs (root ++ "/" ++ f) with
      | none =>
        rw [runWalk_cons_md_none root f rest st hf2 hfd] at h
        cases h
      | some fd =>
        cases hdec : fd.decodable with
        | false =>
          rw [runWalk_cons_md_nodecode root f rest st fd hf2 hfd hdec] at h
          cases h
        | true =>
          cases hr2 : (fix_md032_lines (readlines fd.text)).2 with
          | true =>
            rw [runWalk_cons_md_write root f rest st fd hf2 hfd hdec hr2] at h
            refine runWalk_preserves_norm rest _ st1 _ h ?_
            exact ⟨_, fsRead_fsWrite_self st.fs _ _ fd hfd, rfl,
              fix_written_normalized fd.text⟩
          | false =>
            rw [runWalk_cons_md_nochange root f rest st fd hf2 hfd hdec hr2] at h
            exact runWalk_preserves_norm rest _ st1 _ h ⟨fd, hfd, hdec, hr2⟩
    · by_cases hf0 : endsWithMd f0 = true
      · cases hfd : fsRead st.fs (root0 ++ "/" ++ f0) with
        | none =>
          rw [runWalk_cons_md_none root0 f0 rest st hf0 hfd] at h
          cases h
        | some fd =>
          cases hdec : fd.decodable with
          | false =>
            rw [runWalk_cons_md_nodecode root0 f0 rest st fd hf0 hfd hdec] at h
            cases h
          | true =>
            cases hr2 : (fix_md032_lines (readlines fd.text)).2 with
            | true =>
              rw [runWalk_cons_md_write root0 f0 rest st fd hf0 hfd hdec hr2] at h
              exact ih _ st1 h root f hmem hf2
            | false =>
              rw [runWalk_cons_md_nochange root0 f0 rest st fd hf0 hfd hdec hr2] at h
              exact ih _ st1 h root f hmem hf2
      · have hf02 : endsWithMd f0 = false := by
          cases hval : endsWithMd f0
          · rfl
          · exact absurd hval hf0
        rw [runWalk_cons_nonmd root0 f0 rest st hf02] at h
        exact ih _ st1 h root f hmem hf2

/-- A walk over files that are all already normalized succeeds, writes and
prints nothing, and leaves the filesystem unchanged. -/
theorem runWalk_normalized (entries : List (String × String)) :
    ∀ st : ScriptState,
      (∀ root f, (root, f) ∈ entries → endsWithMd f = true →
        NormalizedAt st.fs (root ++ "/" ++ f)) →
      ∃ rd, runWalk entries st = .ok ⟨st.fs, st.printed, rd, st.writes⟩ := by
  induction entries with
  | nil => intro st _; exact ⟨st.reads, rfl⟩
  | cons x rest ih =>
    intro st h
    rcases x with ⟨root, f⟩
    by_cases hf : endsWithMd f = true
    · rcases h root f (List.mem_cons_self _ _) hf with ⟨fd, hfd, hdec, hn⟩
      rw [runWalk_cons_md_nochange root f rest st fd hf hfd hdec hn]
      exact ih ⟨st.fs, st.printed, st.reads ++ [root ++ "/" ++ f], st.writes⟩
        (fun r2 f2 hm2 hf22 => h r2 f2 (List.mem_cons_of_mem _ hm2) hf22)
    · have hf2 : endsWithMd f = false := by
        cases hval : endsWithMd f
        · rfl
        · exact absurd hval hf
      rw [runWalk_cons_nonmd root f rest st hf2]
      exact ih st (fun r2 f2 hm2 hf22 => h r2 f2 (List.mem_cons_of_mem _ hm2) hf22)

/-! ### Miscellaneous helper lemmas about the classifiers -/

theorem isListItem_not_blank {l : List Char} (h : isListItem l = true) :
    isBlank l = false := by
  cases hb : isBlank l
  · rfl
  · rw [isBlank_not_listItem hb] at h; cases h

theorem specInsertAt_false_of_ge (ls : List (List Char)) (i : Nat)
    (h : ls.length ≤ i) : specInsertAt ls i = false := by
  unfold specInsertAt
  rw [List.getD_eq_default ls [] h, isListItem_nil]
  simp

/-- The `modified` flag is set exactly when some index satisfies the
insertion condition. -/
theorem fix_snd_iff (ls : List (List Char)) :
    (fix_md032_lines ls).2 = true ↔ ∃ i, specInsertAt ls i = true := by
  rw [fix_lines_snd_eq]
  constructor
  · intro h
    rcases List.any_eq_true.mp h with ⟨i, _, hi⟩
    exact ⟨i, hi⟩
  · rintro ⟨i, hi⟩
    apply List.any_eq_true.mpr
    refine ⟨i, List.mem_range.mpr ?_, hi⟩
    by_contra hlt
    push_neg at hlt
    rw [specInsertAt_false_of_ge ls i hlt] at hi
    cases hi

theorem chain'_getD_blank (out : List (List Char)) (h : List.Chain' PredOK out) :
    ∀ i, i + 1 < out.length → isListItem (out.getD (i + 1) []) = true →
      isBlank (out.getD i []) = true := by
  intro i hi hitem
  have hlt : i < out.length - 1 := by omega
  have h2 := List.chain'_iff_get.mp h i hlt
  have e1 : out.getD i [] = out.get ⟨i, by omega⟩ := List.getD_eq_get out [] (by omega)
  have e2 : out.getD (i + 1) [] = out.get ⟨i + 1, hi⟩ := List.getD_eq_get out [] hi
  rw [e2] at hitem
  rw [e1]
  exact h2 hitem

theorem fixPass_no_items (ls : List (List Char)) :
    ∀ prev, (∀ l ∈ ls, isListItem l = false) → fixPass prev ls = (ls, false) := by
  induction ls with
  | nil => intro prev _; rfl
  | cons l rs ih =>
    intro prev h
    have hl : isListItem l = false := h l (List.mem_cons_self _ _)
    have htail := ih (some l) (fun x hx => h x (List.mem_cons_of_mem _ hx))
    cases prev with
    | none => simp [fixPass, htail]
    | some p => simp [fixPass, hl, htail]

theorem mem_tail_no_items (l : List Char) (rest : List (List Char))
    (h : ∀ i, 0 < i → isListItem ((l :: rest).getD i []) = false) :
    ∀ x ∈ rest, isListItem x = false := by
  intro x hx
  rcases List.mem_iff_getElem.mp hx with ⟨j, hj, hxj⟩
  have hh := h (j + 1) (Nat.succ_pos j)
  rw [List.getD_cons_succ, List.getD_eq_getElem rest [] hj, hxj] at hh
  exact hh


theorem dropWhile_append_of_all {p : Char → Bool} (ws t : List Char)
    (h : ∀ x ∈ ws, p x = true) : (ws ++ t).dropWhile p = t.dropWhile p := by
  induction ws with
  | nil => rfl
  | cons a ws2 ih =>
    have ha : p a = true := h a (List.mem_cons_self _ _)
    simp only [List.cons_append, List.dropWhile_cons, ha, if_true]
    exact ih (fun x hx => h x (List.mem_cons_of_mem _ hx))

theorem dropWhile_cons_of_neg {p : Char → Bool} (a : Char) (t : List Char)
    (h : p a = false) : (a :: t).dropWhile p = a :: t := by
  simp [List.dropWhile_cons, h]

theorem takeWhile_all_append {p : Char → Bool} (ds : List Char) (x : Char) (r : List Char)
    (hds : ∀ y ∈ ds, p y = true) (hx : p x = false) :
    (ds ++ x :: r).takeWhile p = ds := by
  induction ds with
  | nil => simp [List.takeWhile_cons, hx]
  | cons a ds2 ih =>
    have ha : p a = true := hds a (List.mem_cons_self _ _)
    simp only [List.cons_append, List.takeWhile_cons, ha, if_true]
    rw [ih (fun y hy => hds y (List.mem_cons_of_mem _ hy))]

theorem dropWhile_all_append {p : Char → Bool} (ds : List Char) (x : Char) (r : List Char)
    (hds : ∀ y ∈ ds, p y = true) (hx : p x = false) :
    (ds ++ x :: r).dropWhile p = x :: r := by
  induction ds with
  | nil => simp [List.dropWhile_cons, hx]
  | cons a ds2 ih =>
    have ha : p a = true := hds a (List.mem_cons_self _ _)
    simp only [List.cons_append, List.dropWhile_cons, ha, if_true]
    exact ih (fun y hy => hds y (List.mem_cons_of_mem _ hy))

theorem space_not_digit {c : Char} (h : isSpaceChar c = true) : isDigitChar c = false := by
  simp only [isSpaceChar, Bool.or_eq_true, decide_eq_true_eq] at h
  rcases h with ((((rfl | rfl) | rfl) | rfl) | rfl) | rfl <;> rfl

theorem digit_not_space {c : Char} (h : isDigitChar c = true) : isSpaceChar c = false := by
  cases hs : isSpaceChar c
  · rfl
  · rw [space_not_digit hs] at h; cases h

theorem space_not_bullet {c : Char} (h : isSpaceChar c = true) : isBullet c = false := by
  simp only [isSpaceChar, Bool.or_eq_true, decide_eq_true_eq] at h
  rcases h with ((((rfl | rfl) | rfl) | rfl) | rfl) | rfl <;> rfl

theorem bullet_not_space {c : Char} (h : isBullet c = true) : isSpaceChar c = false := by
  cases hs : isSpaceChar c
  · rfl
  · rw [space_not_bullet hs] at h; cases h

theorem matchBullet_iff (l : List Char) :
    matchBullet l = true ↔ RegexBulletMatch l := by
  constructor
  · intro h
    unfold matchBullet at h
    cases hs : l.dropWhile isSpaceChar with
    | nil => rw [hs] at h; cases h
    | cons c t =>
      cases t with
      | nil => rw [hs] at h; cases h
      | cons d t2 =>
        rw [hs] at h
        rcases Bool.and_eq_true_iff.mp h with ⟨hc, hd⟩
        refine ⟨l.takeWhile isSpaceChar, c, d, t2, ?_, ?_, hc, hd⟩
        · rw [← hs]; exact (List.takeWhile_append_dropWhile _ _).symm
        · intro x hx; exact List.mem_takeWhile_imp hx
  · rintro ⟨ws, c, d, rest, rfl, hws, hc, hd⟩
    unfold matchBullet
    rw [dropWhile_append_of_all ws _ hws,
        dropWhile_cons_of_neg c _ (bullet_not_space hc)]
    show (isBullet c && isSpaceChar d) = true
    simp [hc, hd]

theorem matchNumbered_iff (l : List Char) :
    matchNumbered l = true ↔ RegexNumberedMatch l := by
  constructor
  · intro h
    simp only [matchNumbered] at h
    cases hd2 : (l.dropWhile isSpaceChar).dropWhile isDigitChar with
    | nil => rw [hd2] at h; cases h
    | cons e t =>
      cases t with
      | nil =>
        rw [hd2] at h
        by_cases he : e = '.' <;> simp [he] at h
      | cons d t2 =>
        rw [hd2] at h
        by_cases he : e = '.'
        · subst he
          have h2 : (!((l.dropWhile isSpaceChar).takeWhile isDigitChar).isEmpty
              && isSpaceChar d) = true := h
          rcases Bool.and_eq_true_iff.mp h2 with ⟨hne, hd⟩
          refine ⟨l.takeWhile isSpaceChar, (l.dropWhile isSpaceChar).takeWhile isDigitChar,
            d, t2, ?_, ?_, ?_, ?_, hd⟩
          · rw [← hd2, List.append_assoc, List.takeWhile_append_dropWhile,
              List.takeWhile_append_dropWhile]
          · intro x hx; exact List.mem_takeWhile_imp hx
          · intro hc; rw [hc] at hne; cases hne
          · intro x hx; exact List.mem_takeWhile_imp hx
        · simp [he] at h
  · rintro ⟨ws, ds, d, rest, rfl, hws, hne, hds, hd⟩
    simp only [matchNumbered]
    have hdig0 : isDigitChar '.' = false := rfl
    have hstep1 : ((ws ++ ds ++ '.' :: d :: rest).dropWhile isSpaceChar)
        = ds ++ '.' :: d :: rest := by
      rw [List.append_assoc, dropWhile_append_of_all ws _ hws]
      cases ds with
      | nil => exact absurd rfl hne
      | cons a ds2 =>
        have ha : isSpaceChar a = false :=
          digit_not_space (hds a (List.mem_cons_self _ _))
        exact dropWhile_cons_of_neg a _ ha
    rw [hstep1, dropWhile_all_append ds '.' (d :: rest) hds hdig0,
        takeWhile_all_append ds '.' (d :: rest) hds hdig0]
    show (!ds.isEmpty && isSpaceChar d) = true
    have : ds.isEmpty = false := by
      cases ds with
      | nil => exact absurd rfl hne
      | cons a ds2 => rfl
    simp [this, hd]

/-! ### The claims -/

/-- C1: one pass inserts exactly one blank line immediately before every
list-item line at input index i > 0 whose input predecessor is non-blank
(`specOutput` spells this out index by index), keeps all original lines
unchanged and in order, and establishes that in the output every list-item
line at position i > 0 is preceded by a blank line. -/
theorem C1_insertion_correctness (ls : List (List Char)) :
    (fix_md032_lines ls).1 = specOutput ls ∧
    ls.Sublist (fix_md032_lines ls).1 ∧
    (∀ i, i + 1 < (fix_md032_lines ls).1.length →
      isListItem ((fix_md032_lines ls).1.getD (i + 1) []) = true →
      isBlank ((fix_md032_lines ls).1.getD i []) = true) :=
  ⟨fix_lines_fst_eq ls, sublist_fixPass ls none,
   chain'_getD_blank _ (chain'_fix ls)⟩

/-- Witness for C1 at a concrete two-line input. -/
theorem C1_witness :
    isBlank ((fix_md032_lines ["Some text\n".toList, "- item\n".toList]).1.getD 1 []) = true :=
  (C1_insertion_correctness ["Some text\n".toList, "- item\n".toList]).2.2 1
    (by decide) (by decide)

/-- C2: the transformation is idempotent on line sequences and on whole
file contents, and a second run of the walk over the directory leaves every
file as it is and reports (prints) zero modifications. -/
theorem C2_idempotent :
    (∀ F : List (List Char),
      fix_md032_lines (fix_md032_lines F).1 = ((fix_md032_lines F).1, false)) ∧
    (∀ c : List Char, processFile (processFile c).1 = ((processFile c).1, false)) ∧
    (∀ (entries : List (String × String)) (st0 st1 : ScriptState),
      runWalk entries st0 = .ok st1 →
      ∃ rd, runWalk entries ⟨st1.fs, [], [], []⟩ = .ok ⟨st1.fs, [], rd, []⟩) :=
  ⟨fix_lines_idem, processFile_idem, fun entries st0 st1 h =>
    runWalk_normalized entries ⟨st1.fs, [], [], []⟩
      (fun root f hm hf => runWalk_establishes_norm entries st0 st1 h root f hm hf)⟩

/-- Witness for C2: a second run over a one-file tree after a modifying
first run changes nothing and prints nothing. -/
theorem C2_witness :
    ∃ rd, runWalk [("docs", "a.md")]
        ⟨[("docs/a.md", ⟨true, "T\n\n- i\n".toList⟩)], [], [], []⟩ =
      .ok ⟨[("docs/a.md", ⟨true, "T\n\n- i\n".toList⟩)], [], rd, []⟩ :=
  C2_idempotent.2.2 [("docs", "a.md")]
    ⟨[("docs/a.md", ⟨true, "T\n- i\n".toList⟩)], [], [], []⟩
    ⟨[("docs/a.md", ⟨true, "T\n\n- i\n".toList⟩)], ["Fixed MD032 errors in docs/a.md"],
      ["docs/a.md"], ["docs/a.md"]⟩
    rfl

/-- C3: any non-blank predecessor triggers insertion, in particular a blank
line is inserted between two adjacent list-item lines (a list-item line is
itself non-blank), and the concrete scenario holds. -/
theorem C3_adjacent_items :
    (∀ a b : List Char, isListItem a = true → isListItem b = true →
      fix_md032_lines [a, b] = ([a, newline, b], true)) ∧
    processFile ("Some text\n- item one\n- item two\n".toList) =
      ("Some text\n\n- item one\n\n- item two\n".toList, true) := by
  constructor
  · intro a b ha hb
    have hba : isBlank a = false := isListItem_not_blank ha
    simp [fix_md032_lines, fixPass, hb, hba]
  · decide

/-- Witness for C3 at two concrete adjacent list items. -/
theorem C3_witness :
    fix_md032_lines ["- item one\n".toList, "- item two\n".toList] =
      (["- item one\n".toList, newline, "- item two\n".toList], true) :=
  C3_adjacent_items.1 ("- item one\n".toList) ("- item two\n".toList)
    (by decide) (by decide)

/-- C4: a line is classified as a list-item line exactly when one of the
two regexes matches it: after a (possibly empty) run of leading whitespace
it starts with a bullet character followed by a whitespace character, or
with one or more digits followed by a dot and a whitespace character;
indentation before the marker never exempts a line. -/
theorem C4_classification (l : List Char) :
    isListItem l = true ↔ (RegexBulletMatch l ∨ RegexNumberedMatch l) := by
  unfold isListItem
  rw [Bool.or_eq_true]
  constructor
  · rintro (h | h)
    · exact Or.inl ((matchBullet_iff l).mp h)
    · exact Or.inr ((matchNumbered_iff l).mp h)
  · rintro (h | h)
    · exact Or.inl ((matchBullet_iff l).mpr h)
    · exact Or.inr ((matchNumbered_iff l).mpr h)

/-- Witness for C4 at a concrete indented bullet line. -/
theorem C4_witness :
    RegexBulletMatch ("  - x\n".toList) ∨ RegexNumberedMatch ("  - x\n".toList) :=
  (C4_classification ("  - x\n".toList)).mp (by decide)

/-- C5: the `modified` flag is set exactly when some insertion condition
holds; an unmodified file keeps its exact content (and the recomputed lines
rejoin to the same bytes) and is neither written nor reported; a modified
file is overwritten with exactly the joined new line sequence (original
lines verbatim per `specOutput`, inserted lines a single newline), and the
write is reported. -/
theorem C5_rewrite_iff :
    (∀ c : List Char,
      ((processFile c).2 = false → (processFile c).1 = c ∧
        (fix_md032_lines (readlines c)).1 = readlines c ∧
        ((fix_md032_lines (readlines c)).1).flatten = c) ∧
      ((processFile c).2 = true →
        (processFile c).1 = ((fix_md032_lines (readlines c)).1).flatten ∧
        (fix_md032_lines (readlines c)).1 = specOutput (readlines c)) ∧
      ((processFile c).2 = true ↔ ∃ i, specInsertAt (readlines c) i = true)) ∧
    (∀ (q : String) (st st2 : ScriptState),
      fix_md032_in_file q st = .ok (st2, false) →
      st2.fs = st.fs ∧ st2.printed = st.printed ∧ st2.writes = st.writes) ∧
    (∀ (q : String) (st st2 : ScriptState),
      fix_md032_in_file q st = .ok (st2, true) →
      ∃ fd, fsRead st.fs q = some fd ∧ fd.decodable = true ∧
        st2.fs = fsWrite st.fs q ⟨true, ((fix_md032_lines (readlines fd.text)).1).flatten⟩ ∧
        st2.printed = st.printed ++ ["Fixed MD032 errors in " ++ q]) := by
  refine ⟨?_, ?_, ?_⟩
  · intro c
    refine ⟨?_, ?_, ?_⟩
    · intro hm
      have hm2 : (fix_md032_lines (readlines c)).2 = false := hm
      have hfst : (fix_md032_lines (readlines c)).1 = readlines c :=
        fixPass_fst_of_snd_false (readlines c) none hm2
      refine ⟨by simp [processFile, hm2], hfst, ?_⟩
      rw [hfst]
      exact flatten_readlines c
    · intro hm
      have hm2 : (fix_md032_lines (readlines c)).2 = true := hm
      exact ⟨by simp [processFile, hm2], fix_lines_fst_eq (readlines c)⟩
    · exact fix_snd_iff (readlines c)
  · intro q st st2 h
    rw [fix_file_spec] at h
    cases hfd : fsRead st.fs q with
    | none => rw [hfd] at h; cases h
    | some fd =>
      rw [hfd] at h
      cases hdec : fd.decodable with
      | false => simp [hdec] at h
      | true =>
        cases hr2 : (fix_md032_lines (readlines fd.text)).2 with
        | true => simp [hdec, hr2] at h
        | false =>
          simp only [hdec, hr2] at h
          simp only [Bool.false_eq_true, if_false, if_true] at h
          cases h
          exact ⟨rfl, rfl, rfl⟩
  · intro q st st2 h
    rw [fix_file_spec] at h
    cases hfd : fsRead st.fs q with
    | none => rw [hfd] at h; cases h
    | some fd =>
      rw [hfd] at h
      cases hdec : fd.decodable with
      | false => simp [hdec] at h
      | true =>
        cases hr2 : (fix_md032_lines (readlines fd.text)).2 with
        | false => simp [hdec, hr2] at h
        | true =>
          simp only [hdec, hr2] at h
          simp only [if_true] at h
          cases h
          exact ⟨fd, rfl, hdec, rfl, rfl⟩

/-- Witness for C5 at a concrete already-correct file. -/
theorem C5_witness :
    (processFile ("Para\n\n- item\n".toList)).1 = "Para\n\n- item\n".toList :=
  ((C5_rewrite_iff.1 ("Para\n\n- item\n".toList)).1 (by decide)).1

/-- C6 counterexample: on a one-file tree whose file is modified, the run
produces no set of modified paths for a caller: the per-file boolean is
discarded by the loop, and the only report is the printed notification,
whose text is the message `Fixed MD032 errors in docs/a.md`, not the bare
path `docs/a.md` the claimed contract would return. -/
theorem C6_counterexample :
    (outState (runWalk [("docs", "a.md")]
        ⟨[("docs/a.md", ⟨true, "Text\n- item\n".toList⟩)], [], [], []⟩)).printed =
      ["Fixed MD032 errors in docs/a.md"] ∧
    (outState (runWalk [("docs", "a.md")]
        ⟨[("docs/a.md", ⟨true, "Text\n- item\n".toList⟩)], [], [], []⟩)).printed ≠
      ["docs/a.md"] := by
  exact ⟨rfl, by decide⟩

/-- C6 amended: the walk loop returns nothing to a caller; which files were
modified is reported only through the printed lines, which are exactly one
notification `Fixed MD032 errors in <path>` per modified Markdown file, in
processing order. -/
theorem C6_reported (entries : List (String × String)) (st : ScriptState) :
    (outState (runWalk entries st)).printed =
      st.printed ++ (reportedPaths entries st.fs).map
        (fun p => "Fixed MD032 errors in " ++ p) :=
  runWalk_printed entries st

/-- C7: the first line of a file never triggers an insertion regardless of
content, and a file whose only list-item lines are at index 0 is left
byte-identical and unreported. -/
theorem C7_first_line :
    (∀ l : List Char, fix_md032_lines [l] = ([l], false)) ∧
    (∀ ls : List (List Char), specInsertAt ls 0 = false) ∧
    (∀ c : List Char,
      (∀ i, 0 < i → isListItem ((readlines c).getD i []) = false) →
      processFile c = (c, false)) ∧
    processFile ("- item\n".toList) = ("- item\n".toList, false) := by
  refine ⟨fun l => rfl, fun ls => rfl, ?_, by decide⟩
  intro c h
  cases hls : readlines c with
  | nil => simp [processFile, fix_md032_lines, hls, fixPass]
  | cons l rest =>
    rw [hls] at h
    have hrest : ∀ x ∈ rest, isListItem x = false := mem_tail_no_items l rest h
    have htail : fixPass (some l) rest = (rest, false) :=
      fixPass_no_items rest (some l) hrest
    simp [processFile, fix_md032_lines, hls, fixPass, htail]

/-- Witness for C7 at a concrete file whose single list item is on the
first line. -/
theorem C7_witness :
    processFile ("- only\n".toList) = ("- only\n".toList, false) :=
  C7_first_line.2.2.1 ("- only\n".toList) (by
    intro i hi
    cases i with
    | zero => cases hi
    | succ j =>
      show isListItem ((readlines ("- only\n".toList)).getD (j + 1) []) = false
      have hr : readlines ("- only\n".toList) = ["- only\n".toList] := by decide
      rw [hr, List.getD_cons_succ, List.getD_eq_default [] [] (Nat.zero_le j)]
      exact isListItem_nil)

/-- C8: a file whose name does not end in `.md` (exact, case-sensitive
suffix) is never opened for reading or writing and keeps its content,
whatever that content is. -/
theorem C8_non_markdown (entries : List (String × String)) (st : ScriptState) (p : String)
    (h : ∀ d n, (d, n) ∈ entries → d ++ "/" ++ n = p → endsWithMd n = false) :
    (p ∈ (outState (runWalk entries st)).reads → p ∈ st.reads) ∧
    (p ∈ (outState (runWalk entries st)).writes → p ∈ st.writes) ∧
    fsRead (outState (runWalk entries st)).fs p = fsRead st.fs p :=
  runWalk_frame entries st p h

/-- Witness for C8 at a concrete `.txt` file that holds unblanked lists. -/
theorem C8_witness :
    fsRead (outState (runWalk [("docs", "notes.txt")]
        ⟨[("docs/notes.txt", ⟨true, "T\n- x\n".toList⟩)], [], [], []⟩)).fs "docs/notes.txt" =
      fsRead [("docs/notes.txt", ⟨true, "T\n- x\n".toList⟩)] "docs/notes.txt" :=
  (C8_non_markdown [("docs", "notes.txt")]
    ⟨[("docs/notes.txt", ⟨true, "T\n- x\n".toList⟩)], [], [], []⟩ "docs/notes.txt"
    (by
      intro d n hm hp
      have hn : n = "notes.txt" := congrArg Prod.snd (List.mem_singleton.mp hm)
      rw [hn]
      decide)).2.2

/-- C9: a failing read of a matched file (here: bytes that do not decode)
is not caught: the run aborts right there, the faulting file is read but
not written, nothing earlier is undone, and every later file is left
unprocessed. -/
theorem C9_decode_error
    (pre post : List (String × String)) (root f : String) (st0 st1 : ScriptState)
    (fd : FileData) (hmd : endsWithMd f = true)
    (hpre : runWalk pre st0 = .ok st1)
    (hread : fsRead st1.fs (root ++ "/" ++ f) = some fd)
    (hdec : fd.decodable = false) :
    runWalk (pre ++ (root, f) :: post) st0 =
      .error ⟨st1.fs, st1.printed, st1.reads ++ [root ++ "/" ++ f], st1.writes⟩ :=
  runWalk_decode_error pre post root f st0 st1 fd hmd hpre hread hdec

/-- Witness for C9: a non-decodable first file aborts the run and leaves
the second file untouched. -/
theorem C9_witness :
    runWalk [("docs", "bad.md"), ("docs", "later.md")]
        ⟨[("docs/bad.md", ⟨false, []⟩), ("docs/later.md", ⟨true, "T\n- x\n".toList⟩)],
          [], [], []⟩ =
      .error ⟨[("docs/bad.md", ⟨false, []⟩), ("docs/later.md", ⟨true, "T\n- x\n".toList⟩)],
        [], ["docs/bad.md"], []⟩ :=
  C9_decode_error [] [("docs", "later.md")] "docs" "bad.md"
    ⟨[("docs/bad.md", ⟨false, []⟩), ("docs/later.md", ⟨true, "T\n- x\n".toList⟩)], [], [], []⟩
    ⟨[("docs/bad.md", ⟨false, []⟩), ("docs/later.md", ⟨true, "T\n- x\n".toList⟩)], [], [], []⟩
    ⟨false, []⟩ (by decide) rfl rfl rfl

/-- C10: a line that is a bare marker followed directly by the newline
terminator is classified as a list item, because the whitespace class of
the regex matches the newline character itself; the same marker with no
trailing character at all (an unterminated final line) is not, and the
behaviour shows at file level. -/
theorem C10_bare_markers :
    isListItem ['-', '\n'] = true ∧ isListItem ['*', '\n'] = true ∧
    isListItem ['+', '\n'] = true ∧ isListItem ['1', '.', '\n'] = true ∧
    isListItem ['-'] = false ∧ isListItem ['1', '.'] = false ∧
    processFile ("text\n-\n".toList) = ("text\n\n-\n".toList, true) ∧
    processFile ("text\n-".toList) = ("text\n-".toList, false) := by
  decide

end FixMd032
